import Mathlib

/-!
Shallow embedding of `src/threadables.py` (functions `enqueuer` and `worker`)
and verification of the specification's claims about them.

Modelling conventions:

* Python values travelling through the `Queue` are modelled as `Option β`:
  `none` is Python's `None` (the sentinel the enqueuer puts at line 68, but
  also a perfectly possible payload yielded by the iterator), `some b` is any
  other value.
* The iterator is a finite list `List (Option β)`; `next` on an empty list is
  `StopIteration`.
* `filter_func` may raise, so it is `Option β → Except ε Bool`; likewise the
  worker's `func` is `β → Except ε Unit`.
* `kill_event` is modelled by a flag `killEvent : Bool` saying whether an
  event object was passed at all, together with time-varying readings (below).
* Timeouts and kill readings are driven by an oracle list
  `env : List (Bool × Bool)`.  One entry is consumed per iteration of the
  `while True:` loop; its first component is the value `kill_event.is_set()`
  would return during that iteration, its second component is whether the
  bounded `put`/`get` of that iteration times out (`Full`/`Empty`).
  Components that the iteration does not actually read are simply ignored.
  Once `env` is exhausted, readings default to "kill unset, no timeout",
  which keeps every run finite and every definition structurally recursive.
* Every interaction with the queue is recorded in a trace, including whether
  the call had a timeout bound (`put(file, timeout=10)` and
  `get(timeout=10)` are bounded; the sentinel `put(None)` at line 68 is an
  unbounded blocking call).
-/

namespace Threadables

/-- One recorded operation on the shared queue.  `bounded` is true exactly
when the Python call carried a `timeout=` argument. -/
inductive ChanOp (β : Type) where
  | putOk (v : Option β) (bounded : Bool)
  | putTimeout (bounded : Bool)
  | getOk (v : Option β) (bounded : Bool)
  | getTimeout (bounded : Bool)
  | taskDone
deriving DecidableEq

/-- Way the main loop of `enqueuer` (lines 52-66) ends. -/
inductive LoopExit (ε : Type) where
  | done
  | killed
  | filterError (e : ε)
deriving DecidableEq

/-- Result of the main loop of `enqueuer`: how it ended, the values
successfully put into the queue (in order), and the queue operations
performed. -/
structure LoopResult (β ε : Type) where
  exit : LoopExit ε
  enqueued : List (Option β)
  trace : List (ChanOp β)
deriving DecidableEq

/-- Terminal status of a whole `enqueuer` run. -/
inductive EnqStatus (ε : Type) where
  | graceful
  | killed
  | sourceExhausted
  | filterError (e : ε)
deriving DecidableEq

/-- Result of a whole `enqueuer` run: terminal status, payload values
successfully put (line 58), number of `None` sentinels put (lines 67-68) and
the full queue-operation trace. -/
structure EnqResult (β ε : Type) where
  status : EnqStatus ε
  enqueued : List (Option β)
  sentinels : Nat
  trace : List (ChanOp β)
deriving DecidableEq

/-- Python `i >= n` of line 61, guarded by `n is not None`. -/
def limitReached (n : Option Nat) (i : Nat) : Bool :=
  match n with
  | none => false
  | some m => decide (m ≤ i)

/-- Main loop of `enqueuer` (lines 52-66) after the oracle list is
exhausted: every remaining kill reading is "unset" and no put times out.
Arguments: current `file`, remaining iterator, accepted count `i`. -/
def enqueuerLoopD (fil : Option β → Except ε Bool) (n : Option Nat) :
    Option β → List (Option β) → Nat → LoopResult β ε
  | file, rest, i =>
    match fil file with
    | .error e => ⟨.filterError e, [], []⟩
    | .ok true =>
      if limitReached n (i + 1) then ⟨.done, [file], [.putOk file true]⟩
      else
        match rest with
        | [] => ⟨.done, [file], [.putOk file true]⟩
        | x :: xs =>
          let r := enqueuerLoopD fil n x xs (i + 1)
          ⟨r.exit, file :: r.enqueued, .putOk file true :: r.trace⟩
    | .ok false =>
      match rest with
      | [] => ⟨.done, [], []⟩
      | x :: xs => enqueuerLoopD fil n x xs i

/-- Main loop of `enqueuer` (lines 52-66).  Each iteration of the
`while True:` loop consumes one oracle entry `(kill, full)`: `kill` is the
`kill_event.is_set()` reading of line 54, `full` says whether the
`queue.put(file, timeout=10)` of line 58 raises `Full`.  A rejected element
(line 53 false) reads neither and just advances the iterator; `Full` retries
the same element (line 59 `continue`), re-running the filter and kill check
exactly as the Python loop does. -/
def enqueuerLoop (fil : Option β → Except ε Bool) (killEvent : Bool)
    (n : Option Nat) :
    List (Bool × Bool) → Option β → List (Option β) → Nat → LoopResult β ε
  | [], file, rest, i => enqueuerLoopD fil n file rest i
  | (kill, full) :: env, file, rest, i =>
    match fil file with
    | .error e => ⟨.filterError e, [], []⟩
    | .ok true =>
      if killEvent && kill then ⟨.killed, [], []⟩
      else if full then
        let r := enqueuerLoop fil killEvent n env file rest i
        ⟨r.exit, r.enqueued, .putTimeout true :: r.trace⟩
      else if limitReached n (i + 1) then ⟨.done, [file], [.putOk file true]⟩
      else
        match rest with
        | [] => ⟨.done, [file], [.putOk file true]⟩
        | x :: xs =>
          let r := enqueuerLoop fil killEvent n env x xs (i + 1)
          ⟨r.exit, file :: r.enqueued, .putOk file true :: r.trace⟩
    | .ok false =>
      match rest with
      | [] => ⟨.done, [], []⟩
      | x :: xs => enqueuerLoop fil killEvent n env x xs i

/-- The whole `enqueuer` function (lines 49-69).  Line 51 eagerly calls
`next(iterator)`, so an empty source raises `StopIteration` uncaught and
nothing at all is put into the queue.  After a normal loop exit, exactly
`n_workers` sentinel values `None` are put by the *unbounded* blocking call
`queue.put(None)` of line 68; after a kill (line 56 `return`) or an uncaught
filter exception no sentinel is put. -/
def enqueuerRun (fil : Option β → Except ε Bool) (killEvent : Bool)
    (n_workers : Nat) (n : Option Nat) (env : List (Bool × Bool))
    (iterator : List (Option β)) : EnqResult β ε :=
  match iterator with
  | [] => ⟨.sourceExhausted, [], 0, []⟩
  | file :: rest =>
    match enqueuerLoop fil killEvent n env file rest 0 with
    | ⟨.killed, enq, tr⟩ => ⟨.killed, enq, 0, tr⟩
    | ⟨.filterError e, enq, tr⟩ => ⟨.filterError e, enq, 0, tr⟩
    | ⟨.done, enq, tr⟩ =>
      ⟨.graceful, enq, n_workers,
        tr ++ List.replicate n_workers (.putOk none false)⟩

/-- Terminal status of a `worker` run.  `starved` records the run that never
terminates because the oracle list is exhausted, no kill event fires and
nothing further ever arrives in the queue: the Python loop would keep polling
`get(timeout=10)` forever. -/
inductive WStatus (ε : Type) where
  | graceful
  | killed
  | funcError (e : ε)
  | starved
deriving DecidableEq

/-- Result of a `worker` run: terminal status, payload values passed to
`func` (in order), number of calls of `exit_func`, and the queue-operation
trace. -/
structure WorkerResult (β ε : Type) where
  status : WStatus ε
  processed : List β
  exitCalls : Nat
  trace : List (ChanOp β)
deriving DecidableEq

/-- The `worker` loop (lines 86-98) after the oracle list is exhausted:
every remaining kill reading is "unset" and no get times out.  The argument
is the list of values still to arrive in the queue, in arrival order. -/
def workerRunD (func : β → Except ε Unit) (exitFunc : Bool) :
    List (Option β) → WorkerResult β ε
  | [] => ⟨.starved, [], 0, []⟩
  | none :: _ => ⟨.graceful, [], if exitFunc then 1 else 0, [.getOk none true]⟩
  | some b :: vs =>
    match func b with
    | .error e => ⟨.funcError e, [b], 0, [.getOk (some b) true]⟩
    | .ok _ =>
      let r := workerRunD func exitFunc vs
      ⟨r.status, b :: r.processed, r.exitCalls,
        .getOk (some b) true :: .taskDone :: r.trace⟩

/-- The whole `worker` function (lines 72-99).  Each iteration of the
`while True:` loop consumes one oracle entry `(kill, empty)`: `kill` is the
`kill_event.is_set()` reading of line 87, `empty` says whether
`queue.get(timeout=10)` (line 91) raises `Empty` in that iteration (it is
forced to when nothing remains to arrive).  On a kill the worker returns at
line 89 without calling `exit_func`; on a dequeued `None` it calls
`exit_func` if given and stops gracefully (lines 94-96); otherwise it calls
`func(result)` — whose exception propagates uncaught — and `task_done()`
(lines 97-98). -/
def workerRun (func : β → Except ε Unit) (exitFunc killEvent : Bool) :
    List (Bool × Bool) → List (Option β) → WorkerResult β ε
  | [], chan => workerRunD func exitFunc chan
  | (kill, empty) :: env, chan =>
    if killEvent && kill then ⟨.killed, [], 0, []⟩
    else
      match chan with
      | [] =>
        let r := workerRun func exitFunc killEvent env []
        ⟨r.status, r.processed, r.exitCalls, .getTimeout true :: r.trace⟩
      | v :: vs =>
        if empty then
          let r := workerRun func exitFunc killEvent env (v :: vs)
          ⟨r.status, r.processed, r.exitCalls, .getTimeout true :: r.trace⟩
        else
          match v with
          | none =>
            ⟨.graceful, [], if exitFunc then 1 else 0, [.getOk none true]⟩
          | some b =>
            match func b with
            | .error e => ⟨.funcError e, [b], 0, [.getOk (some b) true]⟩
            | .ok _ =>
              let r := workerRun func exitFunc killEvent env vs
              ⟨r.status, b :: r.processed, r.exitCalls,
                .getOk (some b) true :: .taskDone :: r.trace⟩

/-- Values successfully put into the queue by the operations of a trace, in
order: the contents the queue receives over the whole run. -/
def putsOf (tr : List (ChanOp β)) : List (Option β) :=
  tr.filterMap fun op =>
    match op with
    | .putOk v _ => some v
    | _ => none

/-- Values successfully taken out of the queue by the operations of a
trace, in order. -/
def getsOf (tr : List (ChanOp β)) : List (Option β) :=
  tr.filterMap fun op =>
    match op with
    | .getOk v _ => some v
    | _ => none

/-- True when the operation is a blocking call on the queue with no timeout
bound.  `task_done` never blocks. -/
def blocksUnbounded : ChanOp β → Bool
  | .putOk _ b => !b
  | .putTimeout b => !b
  | .getOk _ b => !b
  | .getTimeout b => !b
  | .taskDone => false

/-- Sub-stream of the queue contents `chan` dequeued by worker `w`, given a
schedule `sched` that says, position by position, which of the `k` workers
dequeues that queue element. -/
def streamOf (sched : List (Fin k)) (chan : List (Option β)) (w : Fin k) :
    List (Option β) :=
  (chan.zip sched).filterMap fun p => if p.2 = w then some p.1 else none

/-- Number of items the main loop still accepts from state `i` on: with no
limit, all of them; with limit `m`, the loop only tests `i >= n` after
incrementing, so it always accepts at least one more item. -/
def capTake (n : Option Nat) (i : Nat) (l : List γ) : List γ :=
  match n with
  | none => l
  | some m => l.take (max (m - i) 1)

/-- Number of `None` values in a list of queue values. -/
def countNone (l : List (Option β)) : Nat :=
  l.countP fun v => v.isNone

@[simp] theorem putsOf_nil : putsOf ([] : List (ChanOp β)) = [] := rfl

@[simp] theorem putsOf_cons_putOk (v : Option β) (b : Bool) (tr : List (ChanOp β)) :
    putsOf (ChanOp.putOk v b :: tr) = v :: putsOf tr := rfl

@[simp] theorem putsOf_cons_putTimeout (b : Bool) (tr : List (ChanOp β)) :
    putsOf (ChanOp.putTimeout b :: tr) = putsOf tr := rfl

@[simp] theorem putsOf_cons_getOk (v : Option β) (b : Bool) (tr : List (ChanOp β)) :
    putsOf (ChanOp.getOk v b :: tr) = putsOf tr := rfl

@[simp] theorem putsOf_cons_getTimeout (b : Bool) (tr : List (ChanOp β)) :
    putsOf (ChanOp.getTimeout b :: tr) = putsOf tr := rfl

@[simp] theorem putsOf_cons_taskDone (tr : List (ChanOp β)) :
    putsOf (ChanOp.taskDone :: tr) = putsOf tr := rfl

@[simp] theorem putsOf_append (t1 t2 : List (ChanOp β)) :
    putsOf (t1 ++ t2) = putsOf t1 ++ putsOf t2 := by
  simp [putsOf]

theorem putsOf_replicate_putOk (k : Nat) (v : Option β) (b : Bool) :
    putsOf (List.replicate k (ChanOp.putOk v b)) = List.replicate k v := by
  induction k with
  | zero => rfl
  | succ k ih => simp [List.replicate_succ, ih]

@[simp] theorem getsOf_nil : getsOf ([] : List (ChanOp β)) = [] := rfl

@[simp] theorem getsOf_cons_getOk (v : Option β) (b : Bool) (tr : List (ChanOp β)) :
    getsOf (ChanOp.getOk v b :: tr) = v :: getsOf tr := rfl

@[simp] theorem getsOf_cons_getTimeout (b : Bool) (tr : List (ChanOp β)) :
    getsOf (ChanOp.getTimeout b :: tr) = getsOf tr := rfl

@[simp] theorem getsOf_cons_taskDone (tr : List (ChanOp β)) :
    getsOf (ChanOp.taskDone :: tr) = getsOf tr := rfl

/-- Faithfulness of the trace: the values recorded as successfully put by the
main loop are exactly the `enqueued` list it reports (exhausted-oracle
phase). -/
theorem enqueuerLoopD_putsOf (fil : Option β → Except ε Bool) (n : Option Nat) :
    ∀ (rest : List (Option β)) (file : Option β) (i : Nat),
      putsOf (enqueuerLoopD fil n file rest i).trace
        = (enqueuerLoopD fil n file rest i).enqueued := by
  intro rest
  induction rest with
  | nil =>
    intro file i
    rcases hf : fil file with e | b
    · simp [enqueuerLoopD, hf]
    · cases b
      · simp [enqueuerLoopD, hf]
      · cases hL : limitReached n (i + 1) <;> simp [enqueuerLoopD, hf, hL]
  | cons x xs ih =>
    intro file i
    rcases hf : fil file with e | b
    · simp [enqueuerLoopD, hf]
    · cases b
      · simpa [enqueuerLoopD, hf] using ih x i
      · cases hL : limitReached n (i + 1)
        · simpa [enqueuerLoopD, hf, hL] using ih x (i + 1)
        · simp [enqueuerLoopD, hf, hL]

/-- Faithfulness of the trace: the values recorded as successfully put by the
main loop are exactly the `enqueued` list it reports. -/
theorem enqueuerLoop_putsOf (fil : Option β → Except ε Bool) (killEvent : Bool)
    (n : Option Nat) :
    ∀ (env : List (Bool × Bool)) (file : Option β) (rest : List (Option β))
      (i : Nat),
      putsOf (enqueuerLoop fil killEvent n env file rest i).trace
        = (enqueuerLoop fil killEvent n env file rest i).enqueued := by
  intro env
  induction env with
  | nil => intro file rest i; exact enqueuerLoopD_putsOf fil n rest file i
  | cons e env ih =>
    intro file rest i
    obtain ⟨kill, full⟩ := e
    rcases hf : fil file with er | b
    · simp [enqueuerLoop, hf]
    · cases b
      · cases rest with
        | nil => simp [enqueuerLoop, hf]
        | cons x xs => simpa [enqueuerLoop, hf] using ih x xs i
      · cases hk : killEvent && kill
        · cases hfull : full
          · cases hL : limitReached n (i + 1)
            · cases rest with
              | nil => simp [enqueuerLoop, hf, hk, hfull, hL]
              | cons x xs =>
                simpa [enqueuerLoop, hf, hk, hfull, hL] using ih x xs (i + 1)
            · simp [enqueuerLoop, hf, hk, hfull, hL]
          · simpa [enqueuerLoop, hf, hk, hfull] using ih file rest i
        · simp [enqueuerLoop, hf, hk]

/-- Faithfulness of the trace for a whole `enqueuer` run: the queue receives
exactly the reported enqueued payloads followed by the reported number of
`None` sentinels, in that order. -/
theorem enqueuerRun_putsOf (fil : Option β → Except ε Bool) (killEvent : Bool)
    (n_workers : Nat) (n : Option Nat) (env : List (Bool × Bool))
    (iterator : List (Option β)) :
    putsOf (enqueuerRun fil killEvent n_workers n env iterator).trace
      = (enqueuerRun fil killEvent n_workers n env iterator).enqueued
        ++ List.replicate
            (enqueuerRun fil killEvent n_workers n env iterator).sentinels
            (none : Option β) := by
  cases iterator with
  | nil => simp [enqueuerRun]
  | cons file rest =>
    have h := enqueuerLoop_putsOf fil killEvent n env file rest 0
    rcases hr : enqueuerLoop fil killEvent n env file rest 0 with ⟨ex, enq, tr⟩
    rw [hr] at h
    cases ex <;>
      simp_all [enqueuerRun, hr, putsOf_replicate_putOk]

@[simp] theorem capTake_nil (n : Option Nat) (i : Nat) :
    capTake n i ([] : List γ) = [] := by
  cases n <;> simp [capTake]

theorem capTake_none (i : Nat) (l : List γ) : capTake none i l = l := rfl

theorem capTake_limit_le {m i : Nat} (h : m ≤ i + 1) (a : γ) (l : List γ) :
    capTake (some m) i (a :: l) = [a] := by
  have h1 : max (m - i) 1 = 1 := by omega
  simp [capTake, h1]

theorem capTake_limit_gt {m i : Nat} (h : i + 1 < m) (a : γ) (l : List γ) :
    capTake (some m) i (a :: l) = a :: capTake (some m) (i + 1) l := by
  have h1 : max (m - i) 1 = (max (m - (i + 1)) 1) + 1 := by omega
  simp [capTake, h1]

/-- No operation performed by the exhausted-oracle phase of the main loop is
an unbounded blocking call. -/
theorem enqueuerLoopD_noUnbounded (fil : Option β → Except ε Bool)
    (n : Option Nat) :
    ∀ (rest : List (Option β)) (file : Option β) (i : Nat),
      ((enqueuerLoopD fil n file rest i).trace.all
        fun op => !blocksUnbounded op) = true := by
  intro rest
  induction rest with
  | nil =>
    intro file i
    rcases hf : fil file with e | b
    · simp [enqueuerLoopD, hf]
    · cases b
      · simp [enqueuerLoopD, hf]
      · cases hL : limitReached n (i + 1) <;>
          simp [enqueuerLoopD, hf, hL, blocksUnbounded]
  | cons x xs ih =>
    intro file i
    rcases hf : fil file with e | b
    · simp [enqueuerLoopD, hf]
    · cases b
      · simpa [enqueuerLoopD, hf] using ih x i
      · cases hL : limitReached n (i + 1)
        · simpa [enqueuerLoopD, hf, hL, blocksUnbounded] using ih x (i + 1)
        · simp [enqueuerLoopD, hf, hL, blocksUnbounded]

/-- No operation performed by the main loop of `enqueuer` is an unbounded
blocking call: the puts of line 58 all carry `timeout=10`. -/
theorem enqueuerLoop_noUnbounded (fil : Option β → Except ε Bool)
    (killEvent : Bool) (n : Option Nat) :
    ∀ (env : List (Bool × Bool)) (file : Option β) (rest : List (Option β))
      (i : Nat),
      ((enqueuerLoop fil killEvent n env file rest i).trace.all
        fun op => !blocksUnbounded op) = true := by
  intro env
  induction env with
  | nil => intro file rest i; exact enqueuerLoopD_noUnbounded fil n rest file i
  | cons e env ih =>
    intro file rest i
    obtain ⟨kill, full⟩ := e
    rcases hf : fil file with er | b
    · simp [enqueuerLoop, hf]
    · cases b
      · cases rest with
        | nil => simp [enqueuerLoop, hf]
        | cons x xs => simpa [enqueuerLoop, hf] using ih x xs i
      · cases hk : killEvent && kill
        · cases hfull : full
          · cases hL : limitReached n (i + 1)
            · cases rest with
              | nil => simp [enqueuerLoop, hf, hk, hfull, hL, blocksUnbounded]
              | cons x xs =>
                simpa [enqueuerLoop, hf, hk, hfull, hL, blocksUnbounded] using
                  ih x xs (i + 1)
            · simp [enqueuerLoop, hf, hk, hfull, hL, blocksUnbounded]
          · simpa [enqueuerLoop, hf, hk, hfull, blocksUnbounded] using
              ih file rest i
        · simp [enqueuerLoop, hf, hk]

/-- In a whole `enqueuer` run, the only unbounded blocking operations are
the sentinel puts `queue.put(None)` of line 68. -/
theorem enqueuerRun_unbounded_sentinel (fil : Option β → Except ε Bool)
    (killEvent : Bool) (n_workers : Nat) (n : Option Nat)
    (env : List (Bool × Bool)) (iterator : List (Option β)) :
    ∀ op ∈ (enqueuerRun fil killEvent n_workers n env iterator).trace,
      blocksUnbounded op = true → op = ChanOp.putOk none false := by
  intro op hop hub
  cases iterator with
  | nil => simp [enqueuerRun] at hop
  | cons file rest =>
    have hloop := List.all_eq_true.mp
      (enqueuerLoop_noUnbounded fil killEvent n env file rest 0)
    rcases hr : enqueuerLoop fil killEvent n env file rest 0 with ⟨ex, enq, tr⟩
    rw [hr] at hloop
    cases ex with
    | killed =>
      simp only [enqueuerRun, hr] at hop
      have := hloop op hop
      rw [hub] at this; cases this
    | filterError e =>
      simp only [enqueuerRun, hr] at hop
      have := hloop op hop
      rw [hub] at this; cases this
    | done =>
      simp only [enqueuerRun, hr] at hop
      rcases List.mem_append.mp hop with h | h
      · have := hloop op h
        rw [hub] at this; cases this
      · exact List.eq_of_mem_replicate h

/-- No operation performed by the exhausted-oracle phase of `worker` is an
unbounded blocking call. -/
theorem workerRunD_noUnbounded (func : β → Except ε Unit) (ef : Bool) :
    ∀ chan : List (Option β),
      ((workerRunD func ef chan).trace.all
        fun op => !blocksUnbounded op) = true := by
  intro chan
  induction chan with
  | nil => simp [workerRunD]
  | cons v vs ih =>
    cases v with
    | none => simp [workerRunD, blocksUnbounded]
    | some b =>
      rcases hb : func b with e | u
      · simp [workerRunD, hb, blocksUnbounded]
      · simpa [workerRunD, hb, blocksUnbounded] using ih

/-- No operation performed by `worker` is an unbounded blocking call: the
gets of line 91 all carry `timeout=10`, and `task_done` never blocks. -/
theorem workerRun_noUnbounded (func : β → Except ε Unit) (ef killEvent : Bool) :
    ∀ (env : List (Bool × Bool)) (chan : List (Option β)),
      ((workerRun func ef killEvent env chan).trace.all
        fun op => !blocksUnbounded op) = true := by
  intro env
  induction env with
  | nil => exact workerRunD_noUnbounded func ef
  | cons e env ih =>
    intro chan
    obtain ⟨kill, empty⟩ := e
    cases hk : killEvent && kill
    · cases chan with
      | nil => simpa [workerRun, hk, blocksUnbounded] using ih []
      | cons v vs =>
        cases hemp : empty
        · cases v with
          | none => simp [workerRun, hk, hemp, blocksUnbounded]
          | some b =>
            rcases hb : func b with er | u
            · simp [workerRun, hk, hemp, hb, blocksUnbounded]
            · simpa [workerRun, hk, hemp, hb, blocksUnbounded] using ih vs
        · simpa [workerRun, hk, hemp, blocksUnbounded] using ih (v :: vs)
    · simp [workerRun, hk]

/-- With a pure, never-raising filter, the exhausted-oracle phase of the
main loop enqueues exactly the filtered remainder of the source, capped by
the limit bookkeeping of lines 60-62, and always exits normally. -/
theorem enqueuerLoopD_pure (p : Option β → Bool) (n : Option Nat) :
    ∀ (rest : List (Option β)) (file : Option β) (i : Nat),
      enqueuerLoopD (fun x => (Except.ok (p x) : Except ε Bool)) n file rest i
        = ⟨.done, capTake n i ((file :: rest).filter p),
            (capTake n i ((file :: rest).filter p)).map
              (ChanOp.putOk · true)⟩ := by
  intro rest
  induction rest with
  | nil =>
    intro file i
    cases hp : p file
    · simp [enqueuerLoopD, hp]
    · cases n with
      | none => simp [enqueuerLoopD, hp, limitReached, capTake]
      | some m =>
        cases hL : limitReached (some m) (i + 1)
        · have hm : i + 1 < m := by
            simpa [limitReached] using hL
          simp [enqueuerLoopD, hp, hL, capTake_limit_gt hm]
        · have hm : m ≤ i + 1 := by
            simpa [limitReached] using hL
          simp [enqueuerLoopD, hp, hL, capTake_limit_le hm]
  | cons x xs ih =>
    intro file i
    cases hp : p file
    · simp [enqueuerLoopD, hp, ih x i]
    · cases n with
      | none =>
        simp [enqueuerLoopD, hp, limitReached, capTake, ih x (i + 1)]
      | some m =>
        cases hL : limitReached (some m) (i + 1)
        · have hm : i + 1 < m := by
            simpa [limitReached] using hL
          simp [enqueuerLoopD, hp, hL, capTake_limit_gt hm, ih x (i + 1)]
        · have hm : m ≤ i + 1 := by
            simpa [limitReached] using hL
          simp [enqueuerLoopD, hp, hL, capTake_limit_le hm]

/-- With a pure filter and no kill event, the main loop always exits
normally and enqueues exactly the filtered source, capped by the limit
bookkeeping — whatever put timeouts occur, since a `Full` put is simply
retried. -/
theorem enqueuerLoop_pure (p : Option β → Bool) (n : Option Nat) :
    ∀ (env : List (Bool × Bool)) (file : Option β) (rest : List (Option β))
      (i : Nat),
      (enqueuerLoop (fun x => (Except.ok (p x) : Except ε Bool)) false n
          env file rest i).exit = .done
      ∧ (enqueuerLoop (fun x => (Except.ok (p x) : Except ε Bool)) false n
          env file rest i).enqueued = capTake n i ((file :: rest).filter p) := by
  intro env
  induction env with
  | nil =>
    intro file rest i
    rw [enqueuerLoop, enqueuerLoopD_pure]
    exact ⟨rfl, rfl⟩
  | cons e env ih =>
    intro file rest i
    obtain ⟨kill, full⟩ := e
    cases hp : p file
    · cases rest with
      | nil => simp [enqueuerLoop, hp]
      | cons x xs => simpa [enqueuerLoop, hp] using ih x xs i
    · cases hfull : full
      · cases n with
        | none =>
          cases rest with
          | nil => simp [enqueuerLoop, hp, hfull, limitReached, capTake]
          | cons x xs =>
            simpa [enqueuerLoop, hp, hfull, limitReached, capTake] using
              ih x xs (i + 1)
        | some m =>
          cases hL : limitReached (some m) (i + 1)
          · have hm : i + 1 < m := by
              simpa [limitReached] using hL
            cases rest with
            | nil => simp [enqueuerLoop, hp, hfull, hL, capTake_limit_gt hm]
            | cons x xs =>
              simpa [enqueuerLoop, hp, hfull, hL, capTake_limit_gt hm] using
                ih x xs (i + 1)
          · have hm : m ≤ i + 1 := by
              simpa [limitReached] using hL
            simp [enqueuerLoop, hp, hfull, hL, capTake_limit_le hm]
      · simpa [enqueuerLoop, hp, hfull] using ih file rest i

/-- With a pure filter, no kill event and a non-empty source, a whole
`enqueuer` run completes gracefully, enqueues exactly the filtered source
capped by the limit bookkeeping, and then puts exactly `n_workers`
sentinels. -/
theorem enqueuerRun_pure (p : Option β → Bool) (n_workers : Nat)
    (n : Option Nat) (env : List (Bool × Bool)) (file : Option β)
    (rest : List (Option β)) :
    (enqueuerRun (fun x => (Except.ok (p x) : Except ε Bool)) false n_workers n
        env (file :: rest)).status = .graceful
    ∧ (enqueuerRun (fun x => (Except.ok (p x) : Except ε Bool)) false n_workers
        n env (file :: rest)).enqueued
        = capTake n 0 ((file :: rest).filter p)
    ∧ (enqueuerRun (fun x => (Except.ok (p x) : Except ε Bool)) false n_workers
        n env (file :: rest)).sentinels = n_workers := by
  obtain ⟨hexit, henq⟩ := @enqueuerLoop_pure β ε p n env file rest 0
  rcases hr : enqueuerLoop (fun x => (Except.ok (p x) : Except ε Bool)) false n
      env file rest 0 with ⟨ex, enq, tr⟩
  rw [hr] at hexit henq
  simp only at hexit henq
  subst hexit
  simp [enqueuerRun, hr, henq]

/-- If the kill event is set throughout the run, the main loop stops with a
killed status at the first element the filter accepts, having enqueued
nothing: the check of line 54 fires before the put of line 58.  Rejected
elements are simply skipped, so the hypothesis demands some accepted
element. -/
theorem enqueuerLoop_killAll (p : Option β → Bool) (n : Option Nat) :
    ∀ (rest : List (Option β)) (file : Option β) (i : Nat),
      (p file = true ∨ ∃ x ∈ rest, p x = true) →
      enqueuerLoop (fun x => (Except.ok (p x) : Except ε Bool)) true n
          (List.replicate (rest.length + 1) (true, false)) file rest i
        = ⟨.killed, [], []⟩ := by
  intro rest
  induction rest with
  | nil =>
    intro file i hacc
    rcases hacc with hp | ⟨x, hx, _⟩
    · simp [enqueuerLoop, List.replicate, hp]
    · cases hx
  | cons x xs ih =>
    intro file i hacc
    cases hp : p file
    · have hacc' : p x = true ∨ ∃ y ∈ xs, p y = true := by
        rcases hacc with h | ⟨y, hy, hpy⟩
        · rw [hp] at h; cases h
        · rcases List.mem_cons.mp hy with rfl | hy'
          · exact Or.inl hpy
          · exact Or.inr ⟨y, hy', hpy⟩
      have := ih x i hacc'
      simpa [enqueuerLoop, List.replicate_succ, hp] using this
    · simp [enqueuerLoop, List.replicate_succ, hp]

/-- Exhausted-oracle phase of `worker` on a stream of payloads followed by a
sentinel: every payload is processed in order, then the sentinel stops the
worker gracefully with exactly one exit-callback invocation (when an
exit callback was supplied). -/
theorem workerRunD_clean (func : β → Except ε Unit) (ef : Bool) :
    ∀ (pre : List β) (rest : List (Option β)),
      (∀ b ∈ pre, func b = Except.ok ()) →
      (workerRunD func ef (pre.map some ++ none :: rest)).status = .graceful
      ∧ (workerRunD func ef (pre.map some ++ none :: rest)).processed = pre
      ∧ (workerRunD func ef (pre.map some ++ none :: rest)).exitCalls
          = if ef then 1 else 0 := by
  intro pre
  induction pre with
  | nil => intro rest _; simp [workerRunD]
  | cons b bs ih =>
    intro rest h
    have hb : func b = Except.ok () := h b (List.mem_cons_self b bs)
    obtain ⟨h1, h2, h3⟩ := ih rest (fun x hx => h x (List.mem_cons_of_mem b hx))
    simp [workerRunD, hb, h1, h2, h3]

/-- With no kill event, a worker fed a stream of payloads followed by a
sentinel processes every payload in order — whatever get timeouts occur —
and then stops gracefully with exactly one exit-callback invocation (when an
exit callback was supplied). -/
theorem workerRun_clean (func : β → Except ε Unit) (ef : Bool) :
    ∀ (env : List (Bool × Bool)) (pre : List β) (rest : List (Option β)),
      (∀ b ∈ pre, func b = Except.ok ()) →
      (workerRun func ef false env (pre.map some ++ none :: rest)).status
          = .graceful
      ∧ (workerRun func ef false env (pre.map some ++ none :: rest)).processed
          = pre
      ∧ (workerRun func ef false env (pre.map some ++ none :: rest)).exitCalls
          = if ef then 1 else 0 := by
  intro env
  induction env with
  | nil => exact workerRunD_clean func ef
  | cons e env ih =>
    intro pre rest h
    obtain ⟨kill, empty⟩ := e
    cases hemp : empty
    · cases pre with
      | nil => simp [workerRun]
      | cons b bs =>
        have hb : func b = Except.ok () := h b (List.mem_cons_self b bs)
        obtain ⟨h1, h2, h3⟩ :=
          ih bs rest (fun x hx => h x (List.mem_cons_of_mem b hx))
        simp [workerRun, hemp, hb, h1, h2, h3]
    · cases pre with
      | nil =>
        obtain ⟨h1, h2, h3⟩ := ih [] rest h
        simp only [List.map_nil, List.nil_append] at h1 h2 h3
        simp [workerRun, hemp, h1, h2, h3]
      | cons b bs =>
        obtain ⟨h1, h2, h3⟩ := ih (b :: bs) rest h
        simp only [List.map_cons, List.cons_append] at h1 h2 h3
        simp [workerRun, hemp, h1, h2, h3]

/-- Exhausted-oracle phase of `worker` when `func` raises on payload `b0`:
the error propagates out after the earlier payloads were processed, nothing
further is dequeued or processed, and the exit callback is not invoked. -/
theorem workerRunD_funcError (func : β → Except ε Unit) (ef : Bool) (b0 : β)
    (e : ε) (hb0 : func b0 = Except.error e) :
    ∀ (pre : List β) (post : List (Option β)),
      (∀ b ∈ pre, func b = Except.ok ()) →
      (workerRunD func ef (pre.map some ++ some b0 :: post)).status
          = .funcError e
      ∧ (workerRunD func ef (pre.map some ++ some b0 :: post)).processed
          = pre ++ [b0]
      ∧ (workerRunD func ef (pre.map some ++ some b0 :: post)).exitCalls = 0
      ∧ getsOf (workerRunD func ef (pre.map some ++ some b0 :: post)).trace
          = pre.map some ++ [some b0] := by
  intro pre
  induction pre with
  | nil => intro post _; simp [workerRunD, hb0]
  | cons b bs ih =>
    intro post h
    have hb : func b = Except.ok () := h b (List.mem_cons_self b bs)
    obtain ⟨h1, h2, h3, h4⟩ :=
      ih post (fun x hx => h x (List.mem_cons_of_mem b hx))
    simp [workerRunD, hb, h1, h2, h3, h4]

/-- With no kill event, a worker whose `func` raises on payload `b0`
propagates the error out of its loop after processing the earlier payloads,
dequeues nothing after the failing item, and never invokes the exit
callback. -/
theorem workerRun_funcError (func : β → Except ε Unit) (ef : Bool) (b0 : β)
    (e : ε) (hb0 : func b0 = Except.error e) :
    ∀ (env : List (Bool × Bool)) (pre : List β) (post : List (Option β)),
      (∀ b ∈ pre, func b = Except.ok ()) →
      (workerRun func ef false env (pre.map some ++ some b0 :: post)).status
          = .funcError e
      ∧ (workerRun func ef false env
          (pre.map some ++ some b0 :: post)).processed = pre ++ [b0]
      ∧ (workerRun func ef false env
          (pre.map some ++ some b0 :: post)).exitCalls = 0
      ∧ getsOf (workerRun func ef false env
          (pre.map some ++ some b0 :: post)).trace
          = pre.map some ++ [some b0] := by
  intro env
  induction env with
  | nil => exact workerRunD_funcError func ef b0 e hb0
  | cons ent env ih =>
    intro pre post h
    obtain ⟨kill, empty⟩ := ent
    cases hemp : empty
    · cases pre with
      | nil => simp [workerRun, hb0]
      | cons b bs =>
        have hb : func b = Except.ok () := h b (List.mem_cons_self b bs)
        obtain ⟨h1, h2, h3, h4⟩ :=
          ih bs post (fun x hx => h x (List.mem_cons_of_mem b hx))
        simp [workerRun, hemp, hb, h1, h2, h3, h4]
    · cases pre with
      | nil =>
        obtain ⟨h1, h2, h3, h4⟩ := ih [] post h
        simp only [List.map_nil, List.nil_append] at h1 h2 h3 h4
        simp [workerRun, hemp, h1, h2, h3, h4]
      | cons b bs =>
        obtain ⟨h1, h2, h3, h4⟩ := ih (b :: bs) post h
        simp only [List.map_cons, List.cons_append] at h1 h2 h3 h4
        simp [workerRun, hemp, h1, h2, h3, h4]

/-- The exhausted-oracle phase of `worker` never reports a kill: the default
kill reading is "unset". -/
theorem workerRunD_not_killed (func : β → Except ε Unit) (ef : Bool) :
    ∀ chan : List (Option β), (workerRunD func ef chan).status ≠ .killed := by
  intro chan
  induction chan with
  | nil => simp [workerRunD]
  | cons v vs ih =>
    cases v with
    | none => simp [workerRunD]
    | some b =>
      rcases hb : func b with er | u
      · simp [workerRunD, hb]
      · simpa [workerRunD, hb] using ih

/-- A worker that stops because the kill event fired (line 89) never invokes
the exit callback. -/
theorem workerRun_killed_exitCalls (func : β → Except ε Unit)
    (ef killEvent : Bool) :
    ∀ (env : List (Bool × Bool)) (chan : List (Option β)),
      (workerRun func ef killEvent env chan).status = .killed →
      (workerRun func ef killEvent env chan).exitCalls = 0 := by
  intro env
  induction env with
  | nil =>
    intro chan hst
    exact absurd hst (workerRunD_not_killed func ef chan)
  | cons ent env ih =>
    intro chan
    obtain ⟨kill, empty⟩ := ent
    cases hk : killEvent && kill
    · cases chan with
      | nil => simpa [workerRun, hk] using ih []
      | cons v vs =>
        cases hemp : empty
        · cases v with
          | none => simp [workerRun, hk, hemp]
          | some b =>
            rcases hb : func b with er | u
            · simp [workerRun, hk, hemp, hb]
            · simpa [workerRun, hk, hemp, hb] using ih vs
        · simpa [workerRun, hk, hemp] using ih (v :: vs)
    · simp [workerRun, hk]

/-- Exhausted-oracle phase of the main loop when the filter raises on
element `x` (line 53): the elements before `x` that the filter accepted were
enqueued, and the loop ends with the uncaught filter error. -/
theorem enqueuerLoopD_filterError (fil : Option β → Except ε Bool)
    (p : Option β → Bool) (x : Option β) (post : List (Option β)) (e : ε)
    (hx : fil x = Except.error e) :
    ∀ (pre : List (Option β)) (file : Option β) (rest : List (Option β))
      (i : Nat),
      file :: rest = pre ++ x :: post →
      (∀ a ∈ pre, fil a = Except.ok (p a)) →
      (enqueuerLoopD fil none file rest i).exit = .filterError e
      ∧ (enqueuerLoopD fil none file rest i).enqueued = pre.filter p := by
  intro pre
  induction pre with
  | nil =>
    intro file rest i heq _
    injection heq with h1 h2
    subst h1; subst h2
    cases rest <;> simp [enqueuerLoopD, hx]
  | cons a pre ih =>
    intro file rest i heq hpre
    injection heq with h1 h2
    subst h1; subst h2
    have ha : fil file = Except.ok (p file) :=
      hpre file (List.mem_cons_self file pre)
    have hpre' : ∀ b ∈ pre, fil b = Except.ok (p b) :=
      fun b hb => hpre b (List.mem_cons_of_mem file hb)
    cases hpa : p file
    · rw [hpa] at ha
      cases pre with
      | nil =>
        obtain ⟨h1, h2⟩ := ih x post i rfl (by intro b hb; cases hb)
        simp [enqueuerLoopD, ha, h1, h2, hpa]
      | cons b pre2 =>
        obtain ⟨h1, h2⟩ := ih b (pre2 ++ x :: post) i rfl hpre'
        simp [enqueuerLoopD, ha, h1, h2, hpa]
    · rw [hpa] at ha
      cases pre with
      | nil =>
        obtain ⟨h1, h2⟩ := ih x post (i + 1) rfl (by intro b hb; cases hb)
        simp [enqueuerLoopD, ha, limitReached, h1, h2, hpa]
      | cons b pre2 =>
        obtain ⟨h1, h2⟩ := ih b (pre2 ++ x :: post) (i + 1) rfl hpre'
        simp [enqueuerLoopD, ha, limitReached, h1, h2, hpa]

/-- Main loop when the filter raises on element `x` and no kill event was
given: whatever put timeouts occur before that, the loop enqueues exactly
the accepted elements before `x` and then ends with the uncaught filter
error. -/
theorem enqueuerLoop_filterError (fil : Option β → Except ε Bool)
    (p : Option β → Bool) (x : Option β) (post : List (Option β)) (e : ε)
    (hx : fil x = Except.error e) :
    ∀ (env : List (Bool × Bool)) (pre : List (Option β)) (file : Option β)
      (rest : List (Option β)) (i : Nat),
      file :: rest = pre ++ x :: post →
      (∀ a ∈ pre, fil a = Except.ok (p a)) →
      (enqueuerLoop fil false none env file rest i).exit = .filterError e
      ∧ (enqueuerLoop fil false none env file rest i).enqueued
          = pre.filter p := by
  intro env
  induction env with
  | nil =>
    intro pre file rest i heq hpre
    rw [enqueuerLoop]
    exact enqueuerLoopD_filterError fil p x post e hx pre file rest i heq hpre
  | cons ent env ih =>
    intro pre file rest i heq hpre
    obtain ⟨kill, full⟩ := ent
    cases pre with
    | nil =>
      injection heq with h1 h2
      subst h1; subst h2
      cases rest <;> simp [enqueuerLoop, hx]
    | cons a pre =>
      injection heq with h1 h2
      subst h1; subst h2
      have ha : fil file = Except.ok (p file) :=
        hpre file (List.mem_cons_self file pre)
      have hpre' : ∀ b ∈ pre, fil b = Except.ok (p b) :=
        fun b hb => hpre b (List.mem_cons_of_mem file hb)
      cases hpa : p file
      · rw [hpa] at ha
        cases pre with
        | nil =>
          obtain ⟨h1, h2⟩ := ih [] x post i rfl (by intro b hb; cases hb)
          simp [enqueuerLoop, ha, h1, h2, hpa]
        | cons b pre2 =>
          obtain ⟨h1, h2⟩ := ih (b :: pre2) b (pre2 ++ x :: post) i rfl hpre'
          simp [enqueuerLoop, ha, h1, h2, hpa]
      · rw [hpa] at ha
        cases hfull : full
        · cases pre with
          | nil =>
            obtain ⟨h1, h2⟩ := ih [] x post (i + 1) rfl (by intro b hb; cases hb)
            simp [enqueuerLoop, ha, hfull, limitReached, h1, h2, hpa]
          | cons b pre2 =>
            obtain ⟨h1, h2⟩ :=
              ih (b :: pre2) b (pre2 ++ x :: post) (i + 1) rfl hpre'
            simp [enqueuerLoop, ha, hfull, limitReached, h1, h2, hpa]
        · obtain ⟨h1, h2⟩ :=
            ih (file :: pre) file (pre ++ x :: post) i rfl hpre
          simp [enqueuerLoop, ha, hfull, h1, h2]

@[simp] theorem countNone_nil : countNone ([] : List (Option β)) = 0 := rfl

theorem countNone_cons (v : Option β) (l : List (Option β)) :
    countNone (v :: l) = countNone l + if v.isNone then 1 else 0 := by
  cases v <;> simp [countNone, List.countP_cons]

theorem countNone_append (l1 l2 : List (Option β)) :
    countNone (l1 ++ l2) = countNone l1 + countNone l2 := by
  simp [countNone, List.countP_append]

theorem countNone_map_some (l : List β) : countNone (l.map some) = 0 := by
  induction l with
  | nil => rfl
  | cons b bs ih => simpa [countNone_cons] using ih

theorem countNone_replicate_none (k : Nat) :
    countNone (List.replicate k (none : Option β)) = k := by
  induction k with
  | zero => rfl
  | succ k ih => simp [List.replicate_succ, countNone_cons, ih]

theorem streamOf_cons (v : Option β) (vs : List (Option β)) (j : Fin k)
    (js : List (Fin k)) (w : Fin k) :
    streamOf (j :: js) (v :: vs) w
      = if j = w then v :: streamOf js vs w else streamOf js vs w := by
  by_cases h : j = w <;> simp [streamOf, List.filterMap_cons, h]

/-- Each queue element goes to exactly one worker, so the `None` values in
`chan` are distributed exactly over the per-worker sub-streams. -/
theorem sum_countNone_streamOf (k : Nat) :
    ∀ (chan : List (Option β)) (sched : List (Fin k)),
      chan.length = sched.length →
      (∑ w : Fin k, countNone (streamOf sched chan w)) = countNone chan := by
  intro chan
  induction chan with
  | nil => intro sched _; simp [streamOf]
  | cons v vs ih =>
    intro sched h
    cases sched with
    | nil => cases h
    | cons j js =>
      have hlen : vs.length = js.length := by simpa using h
      calc
        (∑ w : Fin k, countNone (streamOf (j :: js) (v :: vs) w))
            = ∑ w : Fin k, ((if j = w then (if v.isNone then 1 else 0) else 0)
                + countNone (streamOf js vs w)) := by
              refine Finset.sum_congr rfl fun w _ => ?_
              by_cases hw : j = w
              · simp [streamOf_cons, hw, countNone_cons]
                omega
              · simp [streamOf_cons, hw]
        _ = (if v.isNone then 1 else 0)
              + ∑ w : Fin k, countNone (streamOf js vs w) := by
              rw [Finset.sum_add_distrib, Finset.sum_ite_eq]
              simp
        _ = countNone (v :: vs) := by
              rw [ih js hlen, countNone_cons]
              omega

/-- A list whose non-final positions contain no `None` has at most one
`None`. -/
theorem countNone_le_one_of_notMem_dropLast (l : List (Option β))
    (h : (none : Option β) ∉ l.dropLast) : countNone l ≤ 1 := by
  by_cases hl : l = []
  · subst hl; simp
  · have hsplit := List.dropLast_append_getLast hl
    have h0 : countNone l.dropLast = 0 := by
      rw [countNone, List.countP_eq_zero]
      intro a ha
      cases a with
      | none => exact absurd ha h
      | some b => simp
    have h1 : countNone [l.getLast hl] ≤ 1 := by
      cases l.getLast hl <;> simp [countNone_cons]
    calc countNone l = countNone (l.dropLast ++ [l.getLast hl]) := by rw [hsplit]
      _ = countNone l.dropLast + countNone [l.getLast hl] := countNone_append ..
      _ ≤ 0 + 1 := by omega
      _ = 1 := by omega

/-- A list of queue values none of which is `None` is a list of payloads. -/
theorem exists_map_some_of_no_none (m : List (Option β))
    (h : ∀ a ∈ m, a ≠ (none : Option β)) : ∃ pre : List β, m = pre.map some := by
  induction m with
  | nil => exact ⟨[], rfl⟩
  | cons a m ih =>
    obtain ⟨pre, hpre⟩ := ih fun b hb => h b (List.mem_cons_of_mem a hb)
    cases a with
    | none => exact absurd rfl (h none (List.mem_cons_self none m))
    | some b => exact ⟨b :: pre, by simp [hpre]⟩

/-- A list with exactly one `None`, located nowhere before the last
position, is a list of payloads followed by a single final `None`. -/
theorem decompose_of_countNone_one (l : List (Option β))
    (hd : (none : Option β) ∉ l.dropLast) (hc : countNone l = 1) :
    ∃ pre : List β, l = pre.map some ++ [none] := by
  have hl : l ≠ [] := by
    intro h; rw [h] at hc; simp at hc
  have hsplit := List.dropLast_append_getLast hl
  have h0 : countNone l.dropLast = 0 := by
    rw [countNone, List.countP_eq_zero]
    intro a ha
    cases a with
    | none => exact absurd ha hd
    | some b => simp
  have hlast : l.getLast hl = none := by
    cases hg : l.getLast hl with
    | none => rfl
    | some b =>
      exfalso
      have : countNone l = 0 := by
        rw [← hsplit, countNone_append, h0, hg]
        simp [countNone_cons]
      omega
  obtain ⟨pre, hpre⟩ := exists_map_some_of_no_none l.dropLast
    (fun a ha => by rintro rfl; exact hd ha)
  exact ⟨pre, by rw [← hsplit, hpre, hlast]⟩

/-- Pigeonhole: `k` values at most `1` each summing to `k` over `Fin k` are
all exactly `1`. -/
theorem all_one_of_sum_eq_card {k : Nat} (f : Fin k → Nat)
    (hle : ∀ w, f w ≤ 1) (hsum : (∑ w : Fin k, f w) = k) : ∀ w, f w = 1 := by
  intro w0
  by_contra hne
  have h0 : f w0 = 0 := by have := hle w0; omega
  have hsplit : f w0 + (∑ w ∈ Finset.univ.erase w0, f w) = ∑ w : Fin k, f w :=
    Finset.add_sum_erase _ f (Finset.mem_univ w0)
  have hbound : (∑ w ∈ Finset.univ.erase w0, f w)
      ≤ (Finset.univ.erase w0).card • 1 :=
    Finset.sum_le_card_nsmul _ f 1 fun x _ => hle x
  have hcard : (Finset.univ.erase w0).card = k - 1 := by
    rw [Finset.card_erase_of_mem (Finset.mem_univ w0), Finset.card_univ,
      Fintype.card_fin]
  have hk : 0 < k := w0.pos
  rw [hcard, smul_eq_mul, mul_one] at hbound
  omega

/-- If the queue contents are payloads followed by exactly `k` sentinels,
any schedule over `k` workers in which no worker dequeues past its first
sentinel gives every worker a stream of payloads ending in exactly one
sentinel. -/
theorem streams_decompose (k : Nat) (items : List β) (sched : List (Fin k))
    (hlen : (items.map some ++ List.replicate k (none : Option β)).length
      = sched.length)
    (hvalid : ∀ w : Fin k, (none : Option β) ∉
      (streamOf sched (items.map some ++ List.replicate k none) w).dropLast) :
    ∀ w : Fin k, ∃ pre : List β,
      streamOf sched (items.map some ++ List.replicate k none) w
        = pre.map some ++ [none] := by
  intro w
  have hchan : countNone ((items.map some : List (Option β))
      ++ List.replicate k none) = k := by
    rw [countNone_append, countNone_map_some, countNone_replicate_none]
    omega
  have hsum := sum_countNone_streamOf k
    (items.map some ++ List.replicate k none) sched hlen
  rw [hchan] at hsum
  have hle : ∀ w : Fin k, countNone
      (streamOf sched (items.map some ++ List.replicate k none) w) ≤ 1 :=
    fun w => countNone_le_one_of_notMem_dropLast _ (hvalid w)
  have hone := all_one_of_sum_eq_card _ hle hsum w
  exact decompose_of_countNone_one _ (hvalid w) hone

/-- Filtering a list of pure payloads commutes with wrapping them as queue
values. -/
theorem filter_map_some (p : Option β → Bool) (l : List β) :
    (l.map some).filter p = (l.filter fun b => p (some b)).map some := by
  induction l with
  | nil => rfl
  | cons b bs ih =>
    cases hb : p (some b) <;> simp [hb, ih]

/-- A worker whose queue never receives anything processes nothing: it polls
until its oracle runs out. -/
theorem workerRun_nil_chan (func : β → Except ε Unit) (ef killEvent : Bool) :
    ∀ env : List (Bool × Bool),
      (workerRun func ef killEvent env []).processed = [] := by
  intro env
  induction env with
  | nil => rfl
  | cons ent env ih =>
    obtain ⟨kill, empty⟩ := ent
    cases hk : killEvent && kill
    · simpa [workerRun, hk] using ih
    · simp [workerRun, hk]

/-- C5: for an empty source sequence the enqueuer eagerly reads one element
(line 51) before entering its main loop, so it raises an unhandled
exhaustion failure (`StopIteration`, the SourceExhaustedAtStart condition)
instead of completing cleanly; it enqueues zero items and zero termination
markers. -/
theorem C5_empty_source (β ε : Type) (fil : Option β → Except ε Bool)
    (killEvent : Bool) (n_workers : Nat) (n : Option Nat)
    (env : List (Bool × Bool)) :
    (enqueuerRun fil killEvent n_workers n env []).status = .sourceExhausted
    ∧ (enqueuerRun fil killEvent n_workers n env []).enqueued = []
    ∧ (enqueuerRun fil killEvent n_workers n env []).sentinels = 0 :=
  ⟨rfl, rfl, rfl⟩

/-- C1 counterexample: with supplied limit `m = 0`, source `[1]` and an
always-true predicate, the enqueuer puts one item, not `min 0 1 = 0` items:
the limit test `i >= n` of line 61 runs only after a successful put, so a
zero limit still lets the first accepted element through. -/
theorem C1_counterexample :
    ¬ ((enqueuerRun (fun _ => (Except.ok true : Except Unit Bool)) false 0
        (some 0) [] [some (1 : Nat)]).enqueued.length
      = min 0 (([some (1 : Nat)].filter fun _ => true).length)) := by
  decide

/-- C1 amended: with a pure predicate, no kill event and supplied limit `m`,
the enqueuer enqueues exactly `min (max m 1) |filter p S|` items — i.e.
exactly `min m |filter p S|` for every `m ≥ 1`, but `min 1 |filter p S|`
when `m = 0` — and the queue receives all of them before any termination
marker. -/
theorem C1_amended_limit (β ε : Type) (p : Option β → Bool) (k : Nat)
    (m : Nat) (env : List (Bool × Bool)) (S : List (Option β)) :
    (enqueuerRun (fun x => (Except.ok (p x) : Except ε Bool)) false k (some m)
        env S).enqueued.length = min (max m 1) (S.filter p).length
    ∧ putsOf (enqueuerRun (fun x => (Except.ok (p x) : Except ε Bool)) false k
        (some m) env S).trace
      = (enqueuerRun (fun x => (Except.ok (p x) : Except ε Bool)) false k
          (some m) env S).enqueued
        ++ List.replicate (enqueuerRun (fun x => (Except.ok (p x) :
            Except ε Bool)) false k (some m) env S).sentinels none := by
  constructor
  · cases S with
    | nil => simp [enqueuerRun]
    | cons file rest =>
      obtain ⟨_, henq, _⟩ := @enqueuerRun_pure β ε p k (some m) env file rest
      rw [henq]
      simp [capTake]
  · exact enqueuerRun_putsOf _ _ _ _ _ _

/-- C2 counterexample: the kill event is set before the run starts (every
reading is "set"), the source `[1]` is non-empty, but the predicate rejects
every element, so the check of line 54 — which sits inside the
filter-accepted branch — never executes: the enqueuer exits gracefully and
enqueues a termination marker instead of reporting a cancelled exit with
zero markers. -/
theorem C2_counterexample :
    ¬ ((enqueuerRun (fun _ => (Except.ok false : Except Unit Bool)) true 1 none
          [(true, false)] [some (1 : Nat)]).status = EnqStatus.killed
        ∧ (enqueuerRun (fun _ => (Except.ok false : Except Unit Bool)) true 1
            none [(true, false)] [some (1 : Nat)]).sentinels = 0) := by
  decide

/-- C2 amended: if the kill event is set before the enqueuer starts (all
readings "set") and at least one source element satisfies the predicate,
then the enqueuer reports a cancelled exit, enqueues zero items and zero
termination markers.  (A source none of whose elements satisfies the
predicate never reaches the cancellation check and exits gracefully.) -/
theorem C2_amended_kill_before_start (β ε : Type) (p : Option β → Bool)
    (k : Nat) (n : Option Nat) (S : List (Option β))
    (hacc : ∃ x ∈ S, p x = true) :
    (enqueuerRun (fun x => (Except.ok (p x) : Except ε Bool)) true k n
        (List.replicate S.length (true, false)) S).status = .killed
    ∧ (enqueuerRun (fun x => (Except.ok (p x) : Except ε Bool)) true k n
        (List.replicate S.length (true, false)) S).enqueued = []
    ∧ (enqueuerRun (fun x => (Except.ok (p x) : Except ε Bool)) true k n
        (List.replicate S.length (true, false)) S).sentinels = 0 := by
  cases S with
  | nil =>
    obtain ⟨x, hx, _⟩ := hacc
    cases hx
  | cons file rest =>
    have hacc' : p file = true ∨ ∃ x ∈ rest, p x = true := by
      obtain ⟨x, hx, hpx⟩ := hacc
      rcases List.mem_cons.mp hx with rfl | hx'
      · exact Or.inl hpx
      · exact Or.inr ⟨x, hx', hpx⟩
    have hkill := @enqueuerLoop_killAll β ε p n rest file 0 hacc'
    have hlen : (file :: rest).length = rest.length + 1 := by simp
    rw [hlen]
    simp [enqueuerRun, hkill]

/-- C2 witness: the amended statement at `S = [1]`, always-true predicate,
one worker. -/
theorem C2_witness :
    (enqueuerRun (fun _ => (Except.ok true : Except Unit Bool)) true 1 none
        (List.replicate [some (1 : Nat)].length (true, false))
        [some (1 : Nat)]).status = .killed
    ∧ (enqueuerRun (fun _ => (Except.ok true : Except Unit Bool)) true 1 none
        (List.replicate [some (1 : Nat)].length (true, false))
        [some (1 : Nat)]).enqueued = []
    ∧ (enqueuerRun (fun _ => (Except.ok true : Except Unit Bool)) true 1 none
        (List.replicate [some (1 : Nat)].length (true, false))
        [some (1 : Nat)]).sentinels = 0 :=
  C2_amended_kill_before_start Nat Unit (fun _ => true) 1 none
    [some 1] (by decide)

/-- C3 counterexample: the termination marker is the Python value `None`,
which is not distinct from every valid payload — a source can yield `None`
itself.  Here the predicate accepts the payload `None`, the enqueuer puts it
into the queue, and the single worker draining the queue treats that very
item as a termination marker: it stops without processing it. -/
theorem C3_counterexample :
    ¬ (∀ v ∈ (enqueuerRun (fun _ => (Except.ok true : Except Unit Bool)) false
          1 none [] ([none] : List (Option Nat))).enqueued,
        v ∈ ((workerRun (fun _ => (Except.ok () : Except Unit Unit)) true false
          [] (putsOf (enqueuerRun (fun _ => (Except.ok true :
            Except Unit Bool)) false 1 none []
            ([none] : List (Option Nat))).trace)).processed.map some)) := by
  decide

/-- C3 amended: the sentinel `None` is distinct from every payload other
than a literal `None` payload.  For a source that yields no `None`, every
item the enqueuer puts into the queue is delivered to the worker's
processing function — a single worker draining the whole queue processes
exactly the enqueued payloads and treats none of them as a marker. -/
theorem C3_amended_sentinel (β ε : Type) (items : List β)
    (p : Option β → Bool) (envF envW : List (Bool × Bool))
    (func : β → Except ε Unit) (ef : Bool)
    (hfunc : ∀ b, func b = Except.ok ()) :
    ((workerRun func ef false envW
        (putsOf (enqueuerRun (fun x => (Except.ok (p x) : Except ε Bool))
          false 1 none envF (items.map some)).trace)).processed).map some
      = (enqueuerRun (fun x => (Except.ok (p x) : Except ε Bool)) false 1 none
          envF (items.map some)).enqueued := by
  cases items with
  | nil =>
    have h1 : putsOf (enqueuerRun (fun x => (Except.ok (p x) : Except ε Bool))
        false 1 none envF (([] : List β).map some)).trace = [] := rfl
    have h2 : (enqueuerRun (fun x => (Except.ok (p x) : Except ε Bool))
        false 1 none envF (([] : List β).map some)).enqueued = [] := rfl
    rw [h1, h2, workerRun_nil_chan]
    rfl
  | cons i0 irest =>
    obtain ⟨hst, henq, hsent⟩ :=
      @enqueuerRun_pure β ε p 1 none envF (some i0) (irest.map some)
    have hputs := enqueuerRun_putsOf (fun x => (Except.ok (p x) : Except ε Bool))
      false 1 none envF (some i0 :: irest.map some)
    rw [henq, hsent] at hputs
    have hshape : capTake none 0 ((some i0 :: irest.map some).filter p)
        = ((i0 :: irest).filter fun b => p (some b)).map some := by
      rw [capTake_none]
      rw [show (some i0 :: irest.map some : List (Option β))
            = (i0 :: irest).map some from rfl]
      rw [filter_map_some]
    rw [hshape] at hputs henq
    simp only [List.map_cons]
    rw [hputs, henq]
    obtain ⟨_, hproc, _⟩ := workerRun_clean func ef envW
      ((i0 :: irest).filter fun b => p (some b)) []
      (fun b _ => hfunc b)
    rw [show (List.replicate 1 (none : Option β)) = (none : Option β) :: []
      from rfl]
    rw [hproc]

/-- C3 witness: the amended statement at `S = [1, 2]`, always-true
predicate. -/
theorem C3_witness :
    ((workerRun (fun _ => (Except.ok () : Except Unit Unit)) true false []
        (putsOf (enqueuerRun (fun _ => (Except.ok true : Except Unit Bool))
          false 1 none [] ([1, 2].map some)).trace)).processed).map some
      = (enqueuerRun (fun _ => (Except.ok true : Except Unit Bool)) false 1
          none [] ([1, 2].map some)).enqueued :=
  C3_amended_sentinel Nat Unit [1, 2] (fun _ => true) [] []
    (fun _ => Except.ok ()) true (fun _ => rfl)

/-- C4 counterexample: not every queue operation of the enqueuer is a
timeout-bounded put or get — the sentinel put `queue.put(None)` of line 68
is a blocking call with no timeout, and it occurs in any graceful run with
at least one worker. -/
theorem C4_counterexample :
    ¬ (∀ op ∈ (enqueuerRun (fun _ => (Except.ok true : Except Unit Bool))
        false 1 none [] [some (1 : Nat)]).trace,
        blocksUnbounded op = false) := by
  decide

/-- C4 amended: every queue operation of a worker is timeout-bounded (or the
non-blocking `task_done`), and the only unbounded blocking operations an
enqueuer ever performs are the sentinel puts `queue.put(None)` of line 68 —
the item puts of line 58 and the gets of line 91 all carry `timeout=10`. -/
theorem C4_amended_bounded_ops (β ε : Type) (fil : Option β → Except ε Bool)
    (killEvent : Bool) (k : Nat) (n : Option Nat)
    (envF : List (Bool × Bool)) (S : List (Option β))
    (func : β → Except ε Unit) (ef kw : Bool) (envW : List (Bool × Bool))
    (chan : List (Option β)) :
    (∀ op ∈ (enqueuerRun fil killEvent k n envF S).trace,
      blocksUnbounded op = true → op = ChanOp.putOk none false)
    ∧ (∀ op ∈ (workerRun func ef kw envW chan).trace,
      blocksUnbounded op = false) := by
  constructor
  · exact enqueuerRun_unbounded_sentinel fil killEvent k n envF S
  · intro op hop
    have h := List.all_eq_true.mp (workerRun_noUnbounded func ef kw envW chan)
      op hop
    simpa using h

/-- C4 witness: the amended statement at a concrete graceful run with one
worker and a two-element channel. -/
theorem C4_witness :
    (∀ op ∈ (enqueuerRun (fun _ => (Except.ok true : Except Unit Bool)) false 1
        none [] [some (1 : Nat)]).trace,
      blocksUnbounded op = true → op = ChanOp.putOk none false)
    ∧ (∀ op ∈ (workerRun (fun _ => (Except.ok () : Except Unit Unit)) true
        false [] [some (1 : Nat), none]).trace,
      blocksUnbounded op = false) :=
  C4_amended_bounded_ops Nat Unit (fun _ => Except.ok true) false 1 none []
    [some 1] (fun _ => Except.ok ()) true false [] [some 1, none]

/-- C7 counterexample: for the source `[None]` and an always-true predicate,
a single worker with no cancellation processes `[]`, not the filtered source
`[None]`: the enqueued payload `None` is indistinguishable from the
termination marker, so FIFO delivery of the filtered source fails. -/
theorem C7_counterexample :
    ¬ (((workerRun (fun _ => (Except.ok () : Except Unit Unit)) true false []
          (putsOf (enqueuerRun (fun _ => (Except.ok true : Except Unit Bool))
            false 1 none [] ([none] : List (Option Nat))).trace)).processed.map
              some)
        = (([none] : List (Option Nat)).filter fun _ => true)) := by
  decide

/-- C7 amended: for a single worker, no cancellation and a source none of
whose elements is `None`, the sequence of processed items equals the
predicate-filtered source sequence in source order, and the worker then
exits gracefully; in particular for S = [1,2,3,4,5] and P = "is even" the
worker processes [2, 4] in that order (witness). -/
theorem C7_amended_fifo (β ε : Type) (items : List β) (p : Option β → Bool)
    (envF envW : List (Bool × Bool)) (func : β → Except ε Unit) (ef : Bool)
    (hfunc : ∀ b, func b = Except.ok ()) (hne : items ≠ []) :
    (workerRun func ef false envW
        (putsOf (enqueuerRun (fun x => (Except.ok (p x) : Except ε Bool))
          false 1 none envF (items.map some)).trace)).processed
      = items.filter (fun b => p (some b))
    ∧ (workerRun func ef false envW
        (putsOf (enqueuerRun (fun x => (Except.ok (p x) : Except ε Bool))
          false 1 none envF (items.map some)).trace)).status = .graceful := by
  cases items with
  | nil => exact absurd rfl hne
  | cons i0 irest =>
    obtain ⟨hst, henq, hsent⟩ :=
      @enqueuerRun_pure β ε p 1 none envF (some i0) (irest.map some)
    have hputs := enqueuerRun_putsOf (fun x => (Except.ok (p x) : Except ε Bool))
      false 1 none envF (some i0 :: irest.map some)
    rw [henq, hsent] at hputs
    have hshape : capTake none 0 ((some i0 :: irest.map some).filter p)
        = ((i0 :: irest).filter fun b => p (some b)).map some := by
      rw [capTake_none]
      rw [show (some i0 :: irest.map some : List (Option β))
            = (i0 :: irest).map some from rfl]
      rw [filter_map_some]
    rw [hshape] at hputs
    simp only [List.map_cons]
    rw [hputs]
    obtain ⟨hstw, hproc, _⟩ := workerRun_clean func ef envW
      ((i0 :: irest).filter fun b => p (some b)) []
      (fun b _ => hfunc b)
    rw [show (List.replicate 1 (none : Option β)) = (none : Option β) :: []
      from rfl]
    exact ⟨hproc, hstw⟩

/-- C7 witness: scenario A — S = [1,2,3,4,5], P = "is even", one worker, no
cancellation: the worker processes exactly the filtered source in order and
exits gracefully. -/
theorem C7_witness :
    (workerRun (fun _ => (Except.ok () : Except Unit Unit)) true false []
        (putsOf (enqueuerRun (fun x => (Except.ok
            (x.elim false fun b => decide (b % 2 = 0)) : Except Unit Bool))
          false 1 none [] ([1, 2, 3, 4, 5].map some)).trace)).processed
      = [1, 2, 3, 4, 5].filter
          (fun b => (some b).elim false fun c => decide (c % 2 = 0))
    ∧ (workerRun (fun _ => (Except.ok () : Except Unit Unit)) true false []
        (putsOf (enqueuerRun (fun x => (Except.ok
            (x.elim false fun b => decide (b % 2 = 0)) : Except Unit Bool))
          false 1 none [] ([1, 2, 3, 4, 5].map some)).trace)).status
      = .graceful :=
  C7_amended_fifo Nat Unit [1, 2, 3, 4, 5]
    (fun x => x.elim false fun b => decide (b % 2 = 0)) [] []
    (fun _ => Except.ok ()) true (fun _ => rfl) (by decide)

/-- C8: put and get timeouts are never surfaced as failures.  A `Full` put
(line 59) makes the enqueuer retry the very same element with the cursor,
the accepted count and the already-enqueued items unchanged — only a
timed-out bounded put is added to the trace; if cancellation is observed on
the next check instead, the enqueuer stops killed.  An `Empty` get
(line 93) makes the worker loop back to its cancellation check and retry
with nothing else changed.  And with a pure filter and no kill event the
enqueuer's loop always ends normally, whatever timeouts occur. -/
theorem C8_timeout_retry (β ε : Type) :
    (∀ (fil : Option β → Except ε Bool) (killEvent : Bool) (n : Option Nat)
        (kill : Bool) (env : List (Bool × Bool)) (file : Option β)
        (rest : List (Option β)) (i : Nat),
      fil file = Except.ok true → (killEvent && kill) = false →
      enqueuerLoop fil killEvent n ((kill, true) :: env) file rest i
        = ⟨(enqueuerLoop fil killEvent n env file rest i).exit,
            (enqueuerLoop fil killEvent n env file rest i).enqueued,
            ChanOp.putTimeout true
              :: (enqueuerLoop fil killEvent n env file rest i).trace⟩)
    ∧ (∀ (fil : Option β → Except ε Bool) (n : Option Nat) (full : Bool)
        (env : List (Bool × Bool)) (file : Option β) (rest : List (Option β))
        (i : Nat),
      fil file = Except.ok true →
      enqueuerLoop fil true n ((true, full) :: env) file rest i
        = ⟨.killed, [], []⟩)
    ∧ (∀ (func : β → Except ε Unit) (ef killEvent kill : Bool)
        (env : List (Bool × Bool)) (v : Option β) (vs : List (Option β)),
      (killEvent && kill) = false →
      workerRun func ef killEvent ((kill, true) :: env) (v :: vs)
        = ⟨(workerRun func ef killEvent env (v :: vs)).status,
            (workerRun func ef killEvent env (v :: vs)).processed,
            (workerRun func ef killEvent env (v :: vs)).exitCalls,
            ChanOp.getTimeout true
              :: (workerRun func ef killEvent env (v :: vs)).trace⟩)
    ∧ (∀ (p : Option β → Bool) (n : Option Nat) (env : List (Bool × Bool))
        (file : Option β) (rest : List (Option β)) (i : Nat),
      (enqueuerLoop (fun x => (Except.ok (p x) : Except ε Bool)) false n env
          file rest i).exit = .done) := by
  refine ⟨?_, ?_, ?_, ?_⟩
  · intro fil killEvent n kill env file rest i hfil hk
    simp [enqueuerLoop, hfil, hk]
  · intro fil n full env file rest i hfil
    simp [enqueuerLoop, hfil]
  · intro func ef killEvent kill env v vs hk
    simp [workerRun, hk]
  · intro p n env file rest i
    exact (@enqueuerLoop_pure β ε p n env file rest i).1

/-- C8 witness: one concrete instance of each conjunct — a put timeout
retried to success, a kill observed right after a put timeout, a get timeout
retried to success, and a loop exit unaffected by timeouts. -/
theorem C8_witness :
    enqueuerLoop (fun _ => (Except.ok true : Except Unit Bool)) false none
        [(false, true)] (some (1 : Nat)) [] 0
      = ⟨.done, [some 1], [ChanOp.putTimeout true, ChanOp.putOk (some 1) true]⟩
    ∧ enqueuerLoop (fun _ => (Except.ok true : Except Unit Bool)) true none
        [(true, false)] (some (1 : Nat)) [] 0 = ⟨.killed, [], []⟩
    ∧ workerRun (fun _ => (Except.ok () : Except Unit Unit)) true false
        [(false, true)] [some (1 : Nat), none]
      = ⟨.graceful, [1], 1, [ChanOp.getTimeout true, ChanOp.getOk (some 1) true,
          ChanOp.taskDone, ChanOp.getOk none true]⟩
    ∧ (enqueuerLoop (fun _ => (Except.ok true : Except Unit Bool)) false none
        [] (some (1 : Nat)) [] 0).exit = .done := by
  have h1 := (C8_timeout_retry Nat Unit).1 (fun _ => Except.ok true) false none
    false [] (some 1) [] 0 rfl rfl
  have h2 := (C8_timeout_retry Nat Unit).2.1 (fun _ => Except.ok true) none
    false [] (some 1) [] 0 rfl
  have h3 := (C8_timeout_retry Nat Unit).2.2.1 (fun _ => Except.ok ()) true
    false false [] (some 1) [none] rfl
  have h4 := (C8_timeout_retry Nat Unit).2.2.2 (fun _ => true) none []
    (some 1) [] 0
  refine ⟨?_, ?_, ?_, ?_⟩
  · rw [h1]; decide
  · exact h2
  · rw [h3]; decide
  · exact h4

/-- C9: an error raised by the processing function propagates out of the
worker's run loop uncaught — it is neither retried nor suppressed — and the
worker dequeues and processes no further item after the failing call; the
exit callback is never invoked on that path. -/
theorem C9_processing_error (β ε : Type) (func : β → Except ε Unit)
    (ef : Bool) (b0 : β) (e : ε) (pre : List β) (post : List (Option β))
    (env : List (Bool × Bool)) (hb0 : func b0 = Except.error e)
    (hpre : ∀ b ∈ pre, func b = Except.ok ()) :
    (workerRun func ef false env (pre.map some ++ some b0 :: post)).status
        = .funcError e
    ∧ (workerRun func ef false env (pre.map some ++ some b0 :: post)).processed
        = pre ++ [b0]
    ∧ (workerRun func ef false env (pre.map some ++ some b0 :: post)).exitCalls
        = 0
    ∧ getsOf (workerRun func ef false env
        (pre.map some ++ some b0 :: post)).trace
        = pre.map some ++ [some b0] :=
  workerRun_funcError func ef b0 e hb0 env pre post hpre

/-- C9 witness: a worker whose `func` fails on 0 processes [1, 2, 0], raises
out of the loop, and dequeues nothing of the remaining channel. -/
theorem C9_witness :
    (workerRun (fun b => if b = 0 then Except.error () else Except.ok ())
        true false [] ([1, 2].map some ++ some 0 :: [some 3, none])).status
        = .funcError ()
    ∧ (workerRun (fun b => if b = 0 then Except.error () else Except.ok ())
        true false [] ([1, 2].map some ++ some 0 :: [some 3, none])).processed
        = [1, 2] ++ [0]
    ∧ (workerRun (fun b => if b = 0 then Except.error () else Except.ok ())
        true false [] ([1, 2].map some ++ some 0 :: [some 3, none])).exitCalls
        = 0
    ∧ getsOf (workerRun (fun b => if b = 0 then Except.error () else
        Except.ok ()) true false []
        ([1, 2].map some ++ some 0 :: [some 3, none])).trace
        = [1, 2].map some ++ [some 0] :=
  C9_processing_error Nat Unit
    (fun b => if b = 0 then Except.error () else Except.ok ()) true 0 ()
    [1, 2] [some 3, none] [] rfl
    (by
      intro b hb
      rcases List.mem_cons.mp hb with rfl | hb
      · rfl
      rcases List.mem_cons.mp hb with rfl | hb
      · rfl
      cases hb)

/-- C10: if the filter function raises on some source element, the exception
propagates out of the enqueuer uncaught (terminal status is the filter
error), the elements before the raising element that the filter accepted
were enqueued but nothing at or after the raising element is, and zero
termination markers are put — workers are never signalled to stop through
the queue in that run. -/
theorem C10_filter_exception (β ε : Type) (fil : Option β → Except ε Bool)
    (p : Option β → Bool) (x : Option β) (e : ε) (pre post : List (Option β))
    (k : Nat) (env : List (Bool × Bool)) (hx : fil x = Except.error e)
    (hpre : ∀ a ∈ pre, fil a = Except.ok (p a)) :
    (enqueuerRun fil false k none env (pre ++ x :: post)).status
        = .filterError e
    ∧ (enqueuerRun fil false k none env (pre ++ x :: post)).enqueued
        = pre.filter p
    ∧ (enqueuerRun fil false k none env (pre ++ x :: post)).sentinels = 0 := by
  cases pre with
  | nil =>
    obtain ⟨h1, h2⟩ := enqueuerLoop_filterError fil p x post e hx env [] x post
      0 rfl (fun b hb => absurd hb (List.not_mem_nil b))
    rcases hr : enqueuerLoop fil false none env x post 0 with ⟨ex, enq, tr⟩
    rw [hr] at h1 h2
    simp only at h1 h2
    subst h1
    simp [enqueuerRun, hr, h2]
  | cons a pre2 =>
    obtain ⟨h1, h2⟩ := enqueuerLoop_filterError fil p x post e hx env
      (a :: pre2) a (pre2 ++ x :: post) 0 rfl hpre
    rcases hr : enqueuerLoop fil false none env a (pre2 ++ x :: post) 0
      with ⟨ex, enq, tr⟩
    rw [hr] at h1 h2
    simp only at h1 h2
    subst h1
    simp [enqueuerRun, List.cons_append, hr, h2]

/-- C10 witness: a filter raising on the second element propagates out after
the first (accepted) element was enqueued; no sentinel is put. -/
theorem C10_witness :
    (enqueuerRun (fun v => if v = some 0 then Except.error () else
        Except.ok true) false 1 none []
        ([some 1] ++ some 0 :: [some 2])).status = .filterError ()
    ∧ (enqueuerRun (fun v => if v = some 0 then Except.error () else
        Except.ok true) false 1 none []
        ([some 1] ++ some 0 :: [some 2])).enqueued
        = ([some 1].filter fun _ => true)
    ∧ (enqueuerRun (fun v => if v = some 0 then Except.error () else
        Except.ok true) false 1 none []
        ([some 1] ++ some 0 :: [some 2])).sentinels = 0 :=
  C10_filter_exception Nat Unit
    (fun v => if v = some 0 then Except.error () else Except.ok true)
    (fun _ => true) (some 0) () [some 1] [some 2] 1 [] rfl
    (by
      intro a ha
      rcases List.mem_cons.mp ha with rfl | ha
      · rfl
      cases ha)

/-- C6: if `n_workers = k` and the (non-empty, `None`-free) source is
exhausted without cancellation, the enqueuer completes gracefully and puts
exactly `k` termination markers (zero when `k = 0`); under any schedule in
which each of the `k` workers stops at its first dequeued marker and the
whole queue is drained, all `k` workers observe a graceful exit, each
invoking its exit callback exactly once; and a worker that stops because of
the kill event never invokes the exit callback. -/
theorem C6_termination (β ε : Type) (k : Nat) (items : List β)
    (p : Option β → Bool) (envF : List (Bool × Bool))
    (func : β → Except ε Unit) (envs : Fin k → List (Bool × Bool))
    (sched : List (Fin k)) (chan : List (Option β))
    (hne : items ≠ []) (hfunc : ∀ b, func b = Except.ok ())
    (hchan : chan = putsOf (enqueuerRun
        (fun x => (Except.ok (p x) : Except ε Bool)) false k none envF
        (items.map some)).trace)
    (hlen : chan.length = sched.length)
    (hvalid : ∀ w : Fin k,
      (none : Option β) ∉ (streamOf sched chan w).dropLast) :
    (enqueuerRun (fun x => (Except.ok (p x) : Except ε Bool)) false k none
        envF (items.map some)).status = .graceful
    ∧ (enqueuerRun (fun x => (Except.ok (p x) : Except ε Bool)) false k none
        envF (items.map some)).sentinels = k
    ∧ (∀ w : Fin k,
        (workerRun func true false (envs w) (streamOf sched chan w)).status
            = .graceful
        ∧ (workerRun func true false (envs w)
            (streamOf sched chan w)).exitCalls = 1)
    ∧ (∀ (ef kv : Bool) (envW : List (Bool × Bool))
        (chan2 : List (Option β)),
        (workerRun func ef kv envW chan2).status = .killed →
        (workerRun func ef kv envW chan2).exitCalls = 0) := by
  subst hchan
  cases items with
  | nil => exact absurd rfl hne
  | cons i0 irest =>
    obtain ⟨hst, henq, hsent⟩ :=
      @enqueuerRun_pure β ε p k none envF (some i0) (irest.map some)
    have hputs := enqueuerRun_putsOf
      (fun x => (Except.ok (p x) : Except ε Bool)) false k none envF
      (some i0 :: irest.map some)
    rw [henq, hsent] at hputs
    have hshape : capTake none 0 ((some i0 :: irest.map some).filter p)
        = ((i0 :: irest).filter fun b => p (some b)).map some := by
      rw [capTake_none]
      rw [show (some i0 :: irest.map some : List (Option β))
            = (i0 :: irest).map some from rfl]
      rw [filter_map_some]
    rw [hshape] at hputs
    have hQ : putsOf (enqueuerRun
        (fun x => (Except.ok (p x) : Except ε Bool)) false k none envF
        ((i0 :: irest).map some)).trace
        = ((i0 :: irest).filter fun b => p (some b)).map some
          ++ List.replicate k none := by
      simp only [List.map_cons]
      exact hputs
    rw [hQ] at hlen hvalid
    refine ⟨?_, ?_, ?_, ?_⟩
    · simpa only [List.map_cons] using hst
    · simpa only [List.map_cons] using hsent
    · intro w
      obtain ⟨pre_w, hw⟩ := streams_decompose k
        ((i0 :: irest).filter fun b => p (some b)) sched hlen hvalid w
      rw [hQ, hw]
      obtain ⟨h1, h2, h3⟩ := workerRun_clean func true (envs w) pre_w []
        (fun b _ => hfunc b)
      exact ⟨h1, by rw [h3]; decide⟩
    · intro ef kv envW chan2
      exact workerRun_killed_exitCalls func ef kv envW chan2

/-- C6 witness: one worker, source [1], always-true predicate, the schedule
that sends both queue elements to the single worker. -/
theorem C6_witness :
    (enqueuerRun (fun _ => (Except.ok true : Except Unit Bool)) false 1 none
        [] ([1].map some)).status = .graceful
    ∧ (enqueuerRun (fun _ => (Except.ok true : Except Unit Bool)) false 1 none
        [] ([1].map some)).sentinels = 1
    ∧ (∀ w : Fin 1,
        (workerRun (fun _ => (Except.ok () : Except Unit Unit)) true false []
          (streamOf [(0 : Fin 1), 0]
            (putsOf (enqueuerRun (fun _ => (Except.ok true : Except Unit Bool))
              false 1 none [] ([1].map some)).trace) w)).status = .graceful
        ∧ (workerRun (fun _ => (Except.ok () : Except Unit Unit)) true false []
          (streamOf [(0 : Fin 1), 0]
            (putsOf (enqueuerRun (fun _ => (Except.ok true : Except Unit Bool))
              false 1 none [] ([1].map some)).trace) w)).exitCalls = 1)
    ∧ (∀ (ef kv : Bool) (envW : List (Bool × Bool))
        (chan2 : List (Option Nat)),
        (workerRun (fun _ => (Except.ok () : Except Unit Unit)) ef kv envW
          chan2).status = .killed →
        (workerRun (fun _ => (Except.ok () : Except Unit Unit)) ef kv envW
          chan2).exitCalls = 0) :=
  C6_termination Nat Unit 1 [1] (fun _ => true) []
    (fun _ => Except.ok ()) (fun _ => []) [(0 : Fin 1), 0]
    (putsOf (enqueuerRun (fun _ => (Except.ok true : Except Unit Bool))
      false 1 none [] ([1].map some)).trace)
    (by decide) (fun _ => rfl) rfl (by decide) (by decide)

end Threadables
